import Mathlib

set_option maxRecDepth 100000

/-!
Verification of the Wheel-of-Fortune vowel-purchase decision engine
(`src/ai/wheel_ai.py`, class `WheelAI`).

The Python code is embedded shallowly:

* strings are `List Char`, sets of letters are `List Char` used up to
  membership, Python numbers are `ℚ` (the code only adds, subtracts,
  multiplies and divides small decimals);
* Python dicts built by the code are association lists `List (Char × ℚ)`;
  the iteration order of Python's `set("AEIOU")` is implementation defined,
  it is modelled here by the canonical order A, E, I, O, U (no theorem
  below depends on that order);
* `_generate_regex` is embedded as the literal regex string the code
  builds, and `re.compile`/`re.match` are modelled by `parseRegex` /
  `reMatch` below, which cover exactly the fragment of Python regex
  syntax that `_generate_regex` can emit (anchors, literals, escaped
  literals, `.`, and character classes, including Python's rules for
  `]` as a first class member, escapes inside classes, and ranges).
  Constructs the generated strings cannot reach once escaping is taken
  into account (grouping, alternation, quantification) are mapped to a
  parse failure; `none` models `re.error` being raised;
* the two reason strings that interpolate the confidence value are kept
  as their constant text, the interpolated number is not modelled (no
  claim depends on the reason text of those two branches).
-/

/-! ## Pattern compiler: the regex string built by `_generate_regex` -/

/-- `board_pattern.replace(" ", "").upper()`. -/
def clean_pattern (p : List Char) : List Char :=
  (p.filter (fun c => decide (c ≠ ' '))).map Char.toUpper

/-- `sorted(excluded)` where `excluded = revealed | (used_letters - revealed)`:
insertion of a character into a sorted list of characters. -/
def insertSorted (c : Char) : List Char → List Char
  | [] => [c]
  | d :: ds => if c ≤ d then c :: d :: ds else d :: insertSorted c ds

/-- Ascending sort of a list of characters (insertion sort). -/
def sortChars : List Char → List Char
  | [] => []
  | c :: cs => insertSorted c (sortChars cs)

/-- `revealed = set(c for c in clean if c.isalpha())` (as a list, up to
membership). -/
def revealedOf (clean : List Char) : List Char :=
  clean.filter Char.isAlpha

/-- `sorted(excluded)` for `excluded = revealed.union(used_letters - revealed)`:
the sorted duplicate-free list of characters a blank may not stand for. -/
def excludedSorted (p u : List Char) : List Char :=
  let revealed := revealedOf (clean_pattern p)
  let dead := u.filter (fun c => !(revealed.contains c))
  sortChars ((revealed ++ dead).dedup)

/-- The characters `re.escape` prefixes with a backslash
(CPython's `_special_chars_map`). -/
def reSpecialChars : List Char :=
  ['(', ')', '[', ']', '{', '}', '?', '*', '+', '-', '|', '^', '$',
   '\\', '.', '&', '~', '#', ' ', '\t', '\n', '\r', '\x0b', '\x0c']

/-- `re.escape(c)` for a single character. -/
def reEscapeChar (c : Char) : List Char :=
  if reSpecialChars.contains c then ['\\', c] else [c]

/-- The `exclusion` fragment: `"[^" + "".join(sorted(excluded)) + "]"` when
`excluded` is nonempty, `"."` otherwise. -/
def exclusionClass (excl : List Char) : List Char :=
  if excl.isEmpty then ['.'] else '[' :: '^' :: excl ++ [']']

/-- One loop iteration of `_generate_regex`: the regex fragment emitted for
one character of the cleaned pattern. -/
def regexPiece (excl : List Char) (c : Char) : List Char :=
  if c = '_' then exclusionClass excl
  else if c.isAlpha then [c]
  else reEscapeChar c

/-- Concatenation of the per-character fragments. -/
def regexBody (excl : List Char) : List Char → List Char
  | [] => []
  | c :: cs => regexPiece excl c ++ regexBody excl cs

/-- `_generate_regex(board_pattern, used_letters)`: the exact regex string
the Python code hands to `re.compile`. -/
def generate_regex (p u : List Char) : List Char :=
  '^' :: regexBody (excludedSorted p u) (clean_pattern p) ++ ['$']

/-! ## A model of `re.compile` / `re.match` on the generated fragment -/

/-- A member of a character class: a single character, a range, or one of
the class-set escapes `\d \D \s \S \w \W`. -/
inductive ClsItem where
  | ch (c : Char)
  | range (lo hi : Char)
  | digit
  | nondigit
  | space
  | nonspace
  | word
  | nonword
deriving DecidableEq, Repr

/-- A raw lexed class member before range pairing: a literal `-` is kept
apart because only an unescaped `-` can form a range. -/
inductive RawAtom where
  | dash
  | item (it : ClsItem)
deriving DecidableEq, Repr

/-- A token of the compiled regex. -/
inductive RTok where
  | start
  | dollar
  | dot
  | lit (c : Char)
  | ncls (items : List ClsItem)
  | pcls (items : List ClsItem)
deriving DecidableEq, Repr

/-- Python's reading of `\c` inside a character class: known single-character
escapes, class-set escapes, literal escapes of punctuation; an unknown
alphanumeric escape is `re.error` (octal escapes are not modelled — a digit
can never follow `\` in a class whose body is a sorted character set). -/
def classEscape (c : Char) : Option ClsItem :=
  if c = 'a' then some (.ch '\x07')
  else if c = 'b' then some (.ch '\x08')
  else if c = 'f' then some (.ch '\x0c')
  else if c = 'n' then some (.ch '\n')
  else if c = 'r' then some (.ch '\x0d')
  else if c = 't' then some (.ch '\t')
  else if c = 'v' then some (.ch '\x0b')
  else if c = 'd' then some .digit
  else if c = 'D' then some .nondigit
  else if c = 's' then some .space
  else if c = 'S' then some .nonspace
  else if c = 'w' then some .word
  else if c = 'W' then some .nonword
  else if c.isAlphanum then none
  else some (.ch c)

/-- Lex the body of a character class (the part after `[` or `[^`) into raw
atoms, stopping at the closing `]`; `first` is true at the first member
position, where `]` is a literal.  `none` models `re.error`
(unterminated class, bad escape). -/
def lexCls : List Char → Bool → Option (List RawAtom × List Char)
  | [], _ => none
  | c :: rest, first =>
    if c = ']' ∧ ¬ first then some ([], rest)
    else if c = '\\' then
      match rest with
      | [] => none
      | d :: rest2 =>
        match classEscape d with
        | none => none
        | some it => (lexCls rest2 false).map (fun p => (RawAtom.item it :: p.1, p.2))
    else if c = '-' then
      (lexCls rest false).map (fun p => (RawAtom.dash :: p.1, p.2))
    else
      (lexCls rest false).map (fun p => (RawAtom.item (ClsItem.ch c) :: p.1, p.2))

/-- A raw atom as a class member when it does not participate in a range. -/
def headItem : RawAtom → ClsItem
  | .dash => .ch '-'
  | .item a => a

/-- Pair `x - y` triples into ranges, as CPython's class parser does: a `-`
that is first, last, or follows a completed range is a literal; a range
whose endpoints are not plain characters in ascending order is
`re.error` (`none`). -/
def pairRanges : List RawAtom → Option (List ClsItem)
  | [] => some []
  | [x] => some [headItem x]
  | x :: RawAtom.dash :: [] => some [headItem x, ClsItem.ch '-']
  | x :: RawAtom.dash :: y :: rest =>
    match headItem x, headItem y with
    | ClsItem.ch a, ClsItem.ch b =>
      if a ≤ b then (pairRanges rest).map (fun is => ClsItem.range a b :: is) else none
    | _, _ => none
  | x :: rest => (pairRanges rest).map (fun is => headItem x :: is)

/-- Parse one regex token off the front of the string; `none` models
`re.error`.  Grouping, alternation and quantifiers are outside the
fragment `_generate_regex` can emit (they only occur escaped) and are
mapped to failure. -/
def parseTok : List Char → Option (RTok × List Char)
  | [] => none
  | c :: r =>
    if c = '^' then some (RTok.start, r)
    else if c = '$' then some (RTok.dollar, r)
    else if c = '.' then some (RTok.dot, r)
    else if c = '\\' then
      match r with
      | [] => none
      | d :: r2 => if d.isAlphanum then none else some (RTok.lit d, r2)
    else if c = '[' then
      match r with
      | [] => none
      | d :: r2 =>
        if d = '^' then
          match lexCls r2 true with
          | none => none
          | some (raws, rest) =>
            (pairRanges raws).map (fun items => (RTok.ncls items, rest))
        else
          match lexCls r true with
          | none => none
          | some (raws, rest) =>
            (pairRanges raws).map (fun items => (RTok.pcls items, rest))
    else if c = '(' ∨ c = ')' ∨ c = '*' ∨ c = '+' ∨ c = '?' ∨ c = '|' then none
    else some (RTok.lit c, r)

/-- Parse a whole regex string into a token list (`re.compile`); `none`
models `re.error` being raised.  The fuel argument only serves structural
recursion: every token consumes at least one character, so any fuel at
least the string length gives the fixpoint (`parseRegexGo_fuel` below). -/
def parseRegexGo : Nat → List Char → List RTok → Option (List RTok)
  | _, [], acc => some acc.reverse
  | 0, _ :: _, _ => none
  | fuel + 1, c :: r, acc =>
    match parseTok (c :: r) with
    | none => none
    | some (t, rest) => parseRegexGo fuel rest (t :: acc)

/-- `re.compile`, on the fragment of regex syntax the engine generates. -/
def parseRegex (l : List Char) : Option (List RTok) :=
  parseRegexGo l.length l []

/-- Membership of a character in a class item. -/
def clsItemMatch (it : ClsItem) (c : Char) : Bool :=
  match it with
  | .ch d => c == d
  | .range lo hi => decide (lo ≤ c) && decide (c ≤ hi)
  | .digit => c.isDigit
  | .nondigit => !c.isDigit
  | .space => ([' ', '\t', '\n', '\x0d', '\x0b', '\x0c'] : List Char).contains c
  | .nonspace => !(([' ', '\t', '\n', '\x0d', '\x0b', '\x0c'] : List Char).contains c)
  | .word => c.isAlphanum || c == '_'
  | .nonword => !(c.isAlphanum || c == '_')

/-- Whether a consuming token matches one character. -/
def tokMatches : RTok → Char → Bool
  | .lit d, c => d == c
  | .dot, c => c != '\n'
  | .ncls items, c => !(items.any (fun it => clsItemMatch it c))
  | .pcls items, c => items.any (fun it => clsItemMatch it c)
  | .start, _ => false
  | .dollar, _ => false

/-- `re.match` semantics for the token list: a prefix match anchored at the
current position; `^` matches only at the start of the string, `$` at the
end or before a trailing newline. -/
def reMatch : List RTok → List Char → Bool → Bool
  | [], _, _ => true
  | RTok.start :: ts, w, atStart => atStart && reMatch ts w atStart
  | RTok.dollar :: ts, w, atStart => (w.isEmpty || w == ['\n']) && reMatch ts w atStart
  | _ :: _, [], _ => false
  | t :: ts, c :: w, _ => tokMatches t c && reMatch ts w false

/-! ## Candidate filter, probability estimators, decision engine -/

/-- `_get_candidates`: compile the generated regex and keep the corpus words
it matches, in corpus order.  `none` models `re.error` escaping from
`re.compile`. -/
def get_candidates (corpus : List (List Char)) (p u : List Char) :
    Option (List (List Char)) :=
  (parseRegex (generate_regex p u)).map
    (fun toks => corpus.filter (fun w => reMatch toks w true))

/-- `self.vowels = set("AEIOU")`, in canonical order. -/
def vowelsList : List Char := ['A', 'E', 'I', 'O', 'U']

/-- `_vowel_probabilities`: for each vowel not used and present in at least
one candidate (`counts[v]` ends up nonzero exactly then), the fraction of
candidates containing it, presence counted once per word
(`if v in w: counts[v] += 1`). -/
def vowel_probabilities (cands : List (List Char)) (u : List Char) :
    List (Char × ℚ) :=
  if cands.isEmpty then []
  else
    vowelsList.filterMap (fun v =>
      if v ∈ u ∨ cands.countP (fun w => decide (v ∈ w)) = 0 then none
      else some (v, (cands.countP (fun w => decide (v ∈ w)) : ℚ) / (cands.length : ℚ)))

/-- `self.general_vowel_freq` with the `.get(v, 0.05)` default. -/
def general_vowel_freq (c : Char) : ℚ :=
  if c = 'A' then 82/1000
  else if c = 'E' then 127/1000
  else if c = 'I' then 70/1000
  else if c = 'O' then 75/1000
  else if c = 'U' then 28/1000
  else 5/100

/-- `_fallback_stats`: statistical expected-value fallback.  The Python
locals are inlined: `clean` is the space-stripped pattern, `blanks` its
count of `_`, `total` its length, and the score multiplies the frequency
by `info_need = 1 - (total - blanks)/total` and by `2.0`.  Note the code
strips spaces before measuring the pattern. -/
def fallback_stats (p u : List Char) : List (Char × ℚ) :=
  if (p.filter (fun c => decide (c ≠ ' '))).length = 0 then []
  else
    vowelsList.filterMap (fun v =>
      if v ∈ u then none
      else some (v, general_vowel_freq v *
        (1 - (((p.filter (fun c => decide (c ≠ ' '))).length : ℚ) -
            ((p.filter (fun c => decide (c ≠ ' '))).countP (fun c => c == '_') : ℚ)) /
          ((p.filter (fun c => decide (c ≠ ' '))).length : ℚ)) * 2))

/-- `max(d, key=d.get)`: the first key of maximal value (the mapping order
is the canonical vowel order here; no theorem depends on the tie-break). -/
def maxKey (l : List (Char × ℚ)) : Option (Char × ℚ) :=
  l.foldl (fun acc p =>
    match acc with
    | none => some p
    | some q => if q.2 < p.2 then some p else some q) none

/-- The record `should_buy_vowel` returns. -/
structure Recommendation where
  decision : Bool
  suggested_vowel : Option Char
  reason : String
  strategy : String
  confidence : ℚ
deriving DecidableEq, Repr

/-- `should_buy_vowel(board_pattern, used_letters, current_money)` for an
engine holding `corpus` and `vowel_cost`.  `none` models `re.error`
escaping from the pattern-matching step. -/
def should_buy_vowel (corpus : List (List Char)) (vowel_cost : ℚ)
    (board_pattern used_letters : List Char) (current_money : ℚ) :
    Option Recommendation :=
  if current_money < vowel_cost then
    some ⟨false, none, "Insufficient money to buy a vowel.", "Finance", 1⟩
  else
    match get_candidates corpus board_pattern used_letters with
    | none => none
    | some cands =>
      if cands.isEmpty then
        let fb := fallback_stats board_pattern used_letters
        match maxKey fb with
        | none =>
          some ⟨false, none, "No valid vowels remaining.", "Fallback", 1⟩
        | some (bv, score) =>
          if 3/20 < score then
            some ⟨true, some bv,
              "Statistical fallback: vowel likely & puzzle is sparse.",
              "Fallback", score⟩
          else
            some ⟨false, some bv,
              "Statistical fallback indicates low value.",
              "Fallback", score⟩
      else
        let probs := vowel_probabilities cands used_letters
        match maxKey probs with
        | none =>
          some ⟨false, none,
            "Pattern match: No vowels appear in candidates.",
            "Pattern Matching", 9/10⟩
        | some (bv, conf) =>
          if 7/10 ≤ conf then
            some ⟨true, some bv,
              "High probability from pattern matching.",
              "Pattern Matching", conf⟩
          else if 2000 < current_money ∧ 2/5 < conf then
            some ⟨true, some bv,
              "Aggressive strategy enabled by high money and decent odds.",
              "Pattern Matching (Aggressive)", conf⟩
          else
            some ⟨false, some bv,
              "Low probability. Better to spin.",
              "Pattern Matching", conf⟩

/-- The hardcoded fallback dictionary of `_load_dictionary`. -/
def fallbackCorpus : List (List Char) :=
  ["APPLE", "BANANA", "PYTHON", "COMPUTER", "ALGORITHM",
   "ORANGE", "GRAPE", "CHERRY", "STRAWBERRY", "MOONLIGHT",
   "SUNSHINE", "TELEPHONE", "JOURNEY", "DATABASE", "KEYBOARD"].map String.toList

/-! ## Specification-side definitions (for refinement claims) -/

/-- The candidate predicate exactly as the specification words it: word
length equals normalized pattern length, literal non-blank positions match
exactly, and each blank position holds a character not in `excluded`
(any character allowed when `excluded` is empty). -/
def specMatches (excl : List Char) : List Char → List Char → Bool
  | [], w => w.isEmpty
  | _ :: _, [] => false
  | p :: ps, c :: cs =>
    (if p = '_' then !(excl.contains c) else p == c) && specMatches excl ps cs

/-- The fallback score exactly as the claim words it: frequency ×
information_need × 2.0 with information_need = 1 − revealed/total where
spaces and punctuation count toward the total length and are treated as
already filled. -/
def specFallbackScore (p : List Char) (v : Char) : ℚ :=
  let total := p.length
  let revealedCt := (p.filter (fun c => decide (c ≠ '_'))).length
  general_vowel_freq v * (1 - (revealedCt : ℚ) / (total : ℚ)) * 2

/-- The token `_generate_regex` intends for one cleaned-pattern character. -/
def pieceTok (excl : List Char) (c : Char) : RTok :=
  if c = '_' then
    (if excl.isEmpty then RTok.dot else RTok.ncls (excl.map ClsItem.ch))
  else RTok.lit c

/-- A ten-word corpus of two-letter words in which exactly seven words
contain the vowel A and no other vowel occurs: the probability of A among
the candidates for a fully blank two-letter board is exactly 0.70. -/
def boundaryCorpus : List (List Char) :=
  ["AB", "AC", "AD", "AF", "AG", "AH", "AJ", "BC", "BD", "BF"].map String.toList

/-! ## Lemmas -/

theorem lexCls_length_aux :
    ∀ (n : Nat) (l : List Char) (first : Bool) (res : List RawAtom × List Char),
      l.length ≤ n → lexCls l first = some res → res.2.length < l.length := by
  intro n
  induction n with
  | zero =>
    intro l first res hn h
    match l with
    | [] => simp [lexCls] at h
  | succ n ih =>
    intro l first res hn h
    match l with
    | [] => simp [lexCls] at h
    | c :: rest =>
      rw [lexCls.eq_def] at h
      simp only [List.length_cons, Nat.add_le_add_iff_right] at hn
      by_cases h1 : c = ']' ∧ ¬ first
      · simp [h1] at h
        cases h
        simp
      · simp only [h1, if_false] at h
        by_cases h2 : c = '\\'
        · simp only [h2, if_true] at h
          match rest, hn, h with
          | d :: rest2, hn, h =>
            cases h3 : classEscape d with
            | none => simp [h3] at h
            | some it =>
              simp only [h3, Option.map_eq_some'] at h
              obtain ⟨p, hp, hres⟩ := h
              have := ih rest2 false p (by simp at hn; omega) hp
              subst hres
              simp only
              simp
              omega
        · simp only [h2, if_false] at h
          by_cases h4 : c = '-' <;>
          · simp only [h4, if_true, if_false, Option.map_eq_some'] at h
            obtain ⟨p, hp, hres⟩ := h
            have := ih rest false p hn hp
            subst hres
            simp only
            simp
            omega

theorem lexCls_length :
    ∀ (l : List Char) (first : Bool) (res : List RawAtom × List Char),
      lexCls l first = some res → res.2.length < l.length :=
  fun l first res h => lexCls_length_aux l.length l first res (le_refl _) h

theorem parseTok_length :
    ∀ (l : List Char) (res : RTok × List Char),
      parseTok l = some res → res.2.length < l.length := by
  intro l res h
  match l with
  | [] => simp [parseTok] at h
  | c :: r =>
    simp only [parseTok.eq_def] at h
    split_ifs at h with h1 h2 h3 h4 h5 h6
    · cases h; simp
    · cases h; simp
    · cases h; simp
    · match r, h with
      | d :: r2, h =>
        by_cases hd : d.isAlphanum
        · simp [hd] at h
        · simp only [hd, if_false] at h
          cases h
          simp
          omega
    · match r, h with
      | d :: r2, h =>
        by_cases hd : d = '^'
        · simp only [hd, if_true] at h
          cases hlex : lexCls r2 true with
          | none => simp [hlex] at h
          | some p =>
            simp only [hlex, Option.map_eq_some'] at h
            obtain ⟨items, hit, hres⟩ := h
            have := lexCls_length r2 true p hlex
            subst hres
            simp only
            simp at this ⊢
            omega
        · simp only [hd, if_false] at h
          cases hlex : lexCls (d :: r2) true with
          | none => simp [hlex] at h
          | some p =>
            simp only [hlex, Option.map_eq_some'] at h
            obtain ⟨items, hit, hres⟩ := h
            have := lexCls_length (d :: r2) true p hlex
            subst hres
            simp only
            simp at this ⊢
            omega
    · cases h; simp

/-- The fuel is irrelevant as soon as it covers the string length. -/
theorem parseRegexGo_fuel :
    ∀ (f1 f2 : Nat) (l : List Char) (acc : List RTok),
      l.length ≤ f1 → l.length ≤ f2 →
      parseRegexGo f1 l acc = parseRegexGo f2 l acc := by
  intro f1
  induction f1 with
  | zero =>
    intro f2 l acc h1 h2
    match l with
    | [] =>
      match f2 with
      | 0 => rfl
      | g + 1 => rfl
  | succ f ih =>
    intro f2 l acc h1 h2
    match l with
    | [] =>
      match f2 with
      | 0 => rfl
      | g + 1 => rfl
    | c :: r =>
      match f2 with
      | g + 1 =>
        simp only [parseRegexGo]
        match ht : parseTok (c :: r) with
        | none => rfl
        | some (t, rest) =>
          have hlt := parseTok_length (c :: r) (t, rest) ht
          simp only [List.length_cons] at h1 h2 hlt
          exact ih g rest (t :: acc) (by omega) (by omega)

/-! ## Helper lemmas: sorting and membership -/

theorem mem_insertSorted (x c : Char) (l : List Char) :
    x ∈ insertSorted c l ↔ x = c ∨ x ∈ l := by
  induction l with
  | nil => simp [insertSorted]
  | cons d ds ih =>
    by_cases h : c ≤ d
    · simp [insertSorted, h]
    · simp [insertSorted, h, ih]
      tauto

theorem mem_sortChars (x : Char) (l : List Char) :
    x ∈ sortChars l ↔ x ∈ l := by
  induction l with
  | nil => simp [sortChars]
  | cons c cs ih => simp [sortChars, mem_insertSorted, ih]

theorem excludedSorted_alpha (p u : List Char) (hu : ∀ c ∈ u, c.isAlpha) :
    ∀ c ∈ excludedSorted p u, c.isAlpha := by
  intro c hc
  unfold excludedSorted at hc
  rw [mem_sortChars, List.mem_dedup, List.mem_append] at hc
  rcases hc with hc | hc
  · exact (List.mem_filter.mp hc).2
  · exact hu c (List.mem_filter.mp hc).1

/-! ## Helper lemmas: parsing the generated regex -/

theorem alpha_facts (c : Char) (h : c.isAlpha) :
    c ≠ ']' ∧ c ≠ '\\' ∧ c ≠ '-' ∧ c ≠ '^' ∧ c ≠ '$' ∧ c ≠ '.' ∧ c ≠ '[' ∧
    c ≠ '(' ∧ c ≠ ')' ∧ c ≠ '*' ∧ c ≠ '+' ∧ c ≠ '?' ∧ c ≠ '|' ∧ c ≠ '_' := by
  refine ⟨?_, ?_, ?_, ?_, ?_, ?_, ?_, ?_, ?_, ?_, ?_, ?_, ?_, ?_⟩ <;>
    (intro hc; subst hc; exact absurd h (by decide))

theorem lexCls_alpha :
    ∀ (s : List Char) (first : Bool) (rest : List Char),
      (∀ c ∈ s, c.isAlpha) → (s = [] → first = false) →
      lexCls (s ++ ']' :: rest) first =
        some (s.map (fun c => RawAtom.item (ClsItem.ch c)), rest) := by
  intro s
  induction s with
  | nil =>
    intro first rest _ hf
    rw [hf rfl, lexCls.eq_def]
    rfl
  | cons c cs ih =>
    intro first rest hs _
    have hc := hs c (by simp)
    obtain ⟨h1, h2, h3, -⟩ := alpha_facts c hc
    rw [List.cons_append, lexCls.eq_def]
    simp only [h1, h2, h3, false_and, if_false]
    rw [ih false rest (fun d hd => hs d (by simp [hd])) (fun _ => rfl)]
    simp

theorem pairRanges_items :
    ∀ (l : List ClsItem), pairRanges (l.map RawAtom.item) = some l := by
  intro l
  induction l with
  | nil => simp [pairRanges]
  | cons a rest ih =>
    match rest, ih with
    | [], _ => simp [pairRanges, headItem]
    | b :: rest2, ih =>
      simp only [List.map_cons] at ih ⊢
      rw [pairRanges.eq_def]
      simp only [headItem]
      rw [ih]
      simp

theorem parseTok_dot (rest : List Char) :
    parseTok ('.' :: rest) = some (RTok.dot, rest) := by
  rw [parseTok.eq_def]
  simp

theorem parseTok_esc (d : Char) (rest : List Char) (hd : ¬ d.isAlphanum) :
    parseTok ('\\' :: d :: rest) = some (RTok.lit d, rest) := by
  rw [parseTok.eq_def]
  simp [hd]

theorem parseTok_litc (c : Char) (rest : List Char)
    (h : c ≠ '^' ∧ c ≠ '$' ∧ c ≠ '.' ∧ c ≠ '\\' ∧ c ≠ '[' ∧ c ≠ '(' ∧
         c ≠ ')' ∧ c ≠ '*' ∧ c ≠ '+' ∧ c ≠ '?' ∧ c ≠ '|') :
    parseTok (c :: rest) = some (RTok.lit c, rest) := by
  obtain ⟨h1, h2, h3, h4, h5, h6, h7, h8, h9, h10, h11⟩ := h
  rw [parseTok.eq_def]
  simp [h1, h2, h3, h4, h5, h6, h7, h8, h9, h10, h11]

theorem parseTok_class (e : Char) (es rest : List Char)
    (hexcl : ∀ d ∈ e :: es, d.isAlpha) :
    parseTok ('[' :: '^' :: ((e :: es) ++ (']' :: rest))) =
      some (RTok.ncls ((e :: es).map ClsItem.ch), rest) := by
  have hlex := lexCls_alpha (e :: es) true rest hexcl (by simp)
  have hpair : pairRanges ((e :: es).map (fun c => RawAtom.item (ClsItem.ch c))) =
      some ((e :: es).map ClsItem.ch) := by
    rw [show (e :: es).map (fun c => RawAtom.item (ClsItem.ch c)) =
        ((e :: es).map ClsItem.ch).map RawAtom.item from by simp]
    exact pairRanges_items _
  rw [List.cons_append] at hlex
  simp only [List.map_cons] at hpair
  rw [parseTok.eq_def]
  simp [hlex, hpair]

theorem parseTok_piece (excl : List Char) (c : Char) (rest : List Char)
    (hexcl : ∀ d ∈ excl, d.isAlpha) :
    parseTok (regexPiece excl c ++ rest) = some (pieceTok excl c, rest) := by
  unfold regexPiece pieceTok exclusionClass
  by_cases hc : c = '_'
  · match excl with
    | [] => simpa [hc] using parseTok_dot rest
    | e :: es =>
      simp only [hc, if_true, List.isEmpty_cons, Bool.false_eq_true, if_false]
      simpa [List.append_assoc] using parseTok_class e es rest hexcl
  · simp only [hc, if_false]
    by_cases ha : c.isAlpha
    · obtain ⟨-, g2, -, g4, g5, g6, g7, g8, g9, g10, g11, g12, g13, -⟩ := alpha_facts c ha
      simp only [ha, if_true]
      exact parseTok_litc c rest ⟨g4, g5, g6, g2, g7, g8, g9, g10, g11, g12, g13⟩
    · simp only [ha, Bool.false_eq_true, if_false]
      unfold reEscapeChar
      by_cases hs : reSpecialChars.contains c
      · rw [if_pos hs]
        have hmem : c ∈ reSpecialChars := by simpa [List.contains] using hs
        have hcn : ¬ c.isAlphanum := by
          revert hmem
          simp only [reSpecialChars, List.mem_cons, List.not_mem_nil, or_false]
          rintro (rfl | rfl | rfl | rfl | rfl | rfl | rfl | rfl | rfl | rfl | rfl | rfl |
            rfl | rfl | rfl | rfl | rfl | rfl | rfl | rfl | rfl | rfl | rfl | rfl) <;> decide
        exact parseTok_esc c rest hcn
      · rw [if_neg hs]
        have hnm : c ∉ reSpecialChars := fun hmem => hs (by simpa [List.contains] using hmem)
        simp only [reSpecialChars, List.mem_cons, List.not_mem_nil, or_false, not_or] at hnm
        obtain ⟨n1, n2, n3, -, -, -, n7, n8, n9, -, n11, n12, n13, n14, n15, -⟩ := hnm
        exact parseTok_litc c rest ⟨n12, n13, n15, n14, n3, n1, n2, n8, n9, n7, n11⟩

theorem regexPiece_ne_nil (excl : List Char) (c : Char) : regexPiece excl c ≠ [] := by
  unfold regexPiece exclusionClass reEscapeChar
  split_ifs <;> simp

theorem parseRegexGo_nil (f : Nat) (acc : List RTok) :
    parseRegexGo f [] acc = some acc.reverse := by
  cases f <;> rfl

theorem parseRegexGo_body (excl : List Char) (hexcl : ∀ d ∈ excl, d.isAlpha) :
    ∀ (clean : List Char) (fuel : Nat) (acc : List RTok),
      (regexBody excl clean ++ ['$']).length ≤ fuel →
      parseRegexGo fuel (regexBody excl clean ++ ['$']) acc =
        some (acc.reverse ++ clean.map (pieceTok excl) ++ [RTok.dollar]) := by
  intro clean
  induction clean with
  | nil =>
    intro fuel acc hlen
    match fuel, hlen with
    | f + 1, _ =>
      show parseRegexGo (f + 1) ['$'] acc = _
      rw [parseRegexGo]
      rw [show parseTok ['$'] = some (RTok.dollar, []) from by rw [parseTok.eq_def]; rfl]
      simp [parseRegexGo_nil]
  | cons c cs ih =>
    intro fuel acc hlen
    have hbody : regexBody excl (c :: cs) ++ ['$'] =
        regexPiece excl c ++ (regexBody excl cs ++ ['$']) := by
      show (regexPiece excl c ++ regexBody excl cs) ++ ['$'] = _
      rw [List.append_assoc]
    rw [hbody] at hlen ⊢
    match hpe : regexPiece excl c with
    | [] => exact absurd hpe (regexPiece_ne_nil excl c)
    | x :: xs =>
      rw [hpe] at hlen
      rw [List.cons_append] at hlen ⊢
      match fuel, hlen with
      | f + 1, hlen =>
        rw [parseRegexGo]
        have hstep : parseTok (x :: (xs ++ (regexBody excl cs ++ ['$']))) =
            some (pieceTok excl c, regexBody excl cs ++ ['$']) := by
          have := parseTok_piece excl c (regexBody excl cs ++ ['$']) hexcl
          rw [hpe, List.cons_append] at this
          exact this
        rw [hstep]
        simp only []
        rw [ih f (pieceTok excl c :: acc) (by
          simp only [List.length_cons, List.length_append] at hlen ⊢
          omega)]
        simp

theorem parseRegex_generate (p u : List Char) (hu : ∀ c ∈ u, c.isAlpha) :
    parseRegex (generate_regex p u) =
      some (RTok.start ::
        ((clean_pattern p).map (pieceTok (excludedSorted p u)) ++ [RTok.dollar])) := by
  have hexcl := excludedSorted_alpha p u hu
  unfold parseRegex generate_regex
  rw [show ('^' :: regexBody (excludedSorted p u) (clean_pattern p) ++ ['$']).length =
      (regexBody (excludedSorted p u) (clean_pattern p) ++ ['$']).length + 1 from by simp]
  rw [List.cons_append, parseRegexGo]
  rw [show parseTok ('^' :: (regexBody (excludedSorted p u) (clean_pattern p) ++ ['$'])) =
      some (RTok.start, regexBody (excludedSorted p u) (clean_pattern p) ++ ['$']) from by
    rw [parseTok.eq_def]; rfl]
  simp only []
  rw [parseRegexGo_body (excludedSorted p u) hexcl (clean_pattern p) _ [RTok.start] (le_refl _)]
  simp

theorem reMatch_dollar (ts : List RTok) (w : List Char) (b : Bool) :
    reMatch (RTok.dollar :: ts) w b = ((w.isEmpty || w == ['\n']) && reMatch ts w b) := by
  cases w <;> rfl

theorem reMatch_consume_nil (t : RTok) (ts : List RTok) (b : Bool)
    (h1 : t ≠ RTok.start) (h2 : t ≠ RTok.dollar) :
    reMatch (t :: ts) [] b = false := by
  cases t <;> first
    | exact absurd rfl h1
    | exact absurd rfl h2
    | rfl

theorem reMatch_consume_cons (t : RTok) (ts : List RTok) (c : Char) (w : List Char) (b : Bool)
    (h1 : t ≠ RTok.start) (h2 : t ≠ RTok.dollar) :
    reMatch (t :: ts) (c :: w) b = (tokMatches t c && reMatch ts w false) := by
  cases t <;> first
    | exact absurd rfl h1
    | exact absurd rfl h2
    | rfl

theorem tokMatches_ncls (excl : List Char) (c : Char) :
    tokMatches (RTok.ncls (excl.map ClsItem.ch)) c = !(excl.contains c) := by
  show (!((excl.map ClsItem.ch).any (fun it => clsItemMatch it c))) = !(excl.contains c)
  rw [List.contains_eq_any_beq]
  congr 1
  induction excl with
  | nil => rfl
  | cons e es ih =>
    simp only [List.map_cons, List.any_cons, ih]
    rfl

theorem reMatch_body (excl : List Char) :
    ∀ (clean w : List Char) (b : Bool), (∀ c ∈ w, c.isAlpha) →
      reMatch ((clean.map (pieceTok excl)) ++ [RTok.dollar]) w b =
        specMatches excl clean w := by
  intro clean
  induction clean with
  | nil =>
    intro w b hw
    show reMatch [RTok.dollar] w b = _
    rw [reMatch_dollar]
    match w with
    | [] => rfl
    | c :: cs =>
      have hc : c ≠ '\n' := by
        intro h
        have hca := hw c (by simp)
        rw [h] at hca
        exact absurd hca (by decide)
      show ((false || (c :: cs == ['\n'])) && reMatch [] (c :: cs) b) = false
      have hbeq : ((c :: cs : List Char) == ['\n']) = false := by
        simp [hc]
      rw [hbeq]
      rfl
  | cons p ps ih =>
    intro w b hw
    rw [List.map_cons, List.cons_append]
    have h1 : pieceTok excl p ≠ RTok.start := by
      unfold pieceTok
      split_ifs <;> simp
    have h2 : pieceTok excl p ≠ RTok.dollar := by
      unfold pieceTok
      split_ifs <;> simp
    match w with
    | [] =>
      rw [reMatch_consume_nil _ _ _ h1 h2]
      rfl
    | c :: cs =>
      rw [reMatch_consume_cons _ _ _ _ _ h1 h2]
      rw [ih cs false (fun d hd => hw d (by simp [hd]))]
      have hca : c.isAlpha := hw c (by simp)
      have htok : tokMatches (pieceTok excl p) c =
          (if p = '_' then !(excl.contains c) else p == c) := by
        unfold pieceTok
        by_cases hp : p = '_'
        · simp only [hp, if_true]
          match excl with
          | [] =>
            have hc : c ≠ '\n' := by
              intro h
              rw [h] at hca
              exact absurd hca (by decide)
            show (c != '\n') = !(([] : List Char).contains c)
            simp [hc]
          | e :: es =>
            simp only [List.isEmpty_cons, Bool.false_eq_true, if_false]
            exact tokMatches_ncls (e :: es) c
        · simp only [hp, if_false]
          rfl
      rw [htok]
      show _ = specMatches excl (p :: ps) (c :: cs)
      rfl

theorem reMatch_start (ts : List RTok) (w : List Char) (b : Bool) :
    reMatch (RTok.start :: ts) w b = (b && reMatch ts w b) := by
  cases w <;> rfl

theorem get_candidates_spec_aux (corpus : List (List Char)) (p u : List Char)
    (hu : ∀ c ∈ u, c.isAlpha) (hcorp : ∀ w ∈ corpus, ∀ c ∈ w, c.isAlpha) :
    get_candidates corpus p u =
      some (corpus.filter
        (fun w => specMatches (excludedSorted p u) (clean_pattern p) w)) := by
  unfold get_candidates
  rw [parseRegex_generate p u hu]
  rw [Option.map_some']
  congr 1
  apply List.filter_congr
  intro w hw
  rw [reMatch_start, Bool.true_and]
  exact reMatch_body (excludedSorted p u) (clean_pattern p) w true (hcorp w hw)

/-! ## Helper lemmas: the probability mappings as keyed lookups -/

theorem lookup_filterMap_none (f : Char → Option (Char × ℚ))
    (hf : ∀ c q, f c = some q → q.1 = c) :
    ∀ (l : List Char) (v : Char), v ∉ l → (l.filterMap f).lookup v = none := by
  intro l
  induction l with
  | nil => intro v _; rfl
  | cons c cs ih =>
    intro v hv
    rw [List.filterMap_cons]
    match hfc : f c with
    | none => exact ih v (fun h => hv (by simp [h]))
    | some q =>
      obtain ⟨k, val⟩ := q
      have hk : k = c := hf c (k, val) hfc
      rw [List.lookup_cons]
      rw [show (v == k) = false from beq_false_of_ne (fun h => hv (by simp [h, hk]))]
      exact ih v (fun h => hv (by simp [h]))

theorem lookup_filterMap_keyed (f : Char → Option (Char × ℚ))
    (hf : ∀ c q, f c = some q → q.1 = c) :
    ∀ (l : List Char), l.Nodup → ∀ (v : Char),
      (l.filterMap f).lookup v =
        if v ∈ l then (f v).map (fun q => q.2) else none := by
  intro l
  induction l with
  | nil => intro _ v; simp
  | cons c cs ih =>
    intro hnd v
    have hcns := (List.nodup_cons.mp hnd).1
    have hnd2 := (List.nodup_cons.mp hnd).2
    rw [List.filterMap_cons]
    by_cases hvc : v = c
    · subst hvc
      match hfc : f v with
      | none =>
        rw [lookup_filterMap_none f hf cs v hcns]
        simp [hfc]
      | some q =>
        obtain ⟨k, val⟩ := q
        have hk : k = v := hf v (k, val) hfc
        subst hk
        rw [List.lookup_cons]
        simp [hfc]
    · match hfc : f c with
      | none =>
        rw [ih hnd2 v]
        simp [hvc]
      | some q =>
        obtain ⟨k, val⟩ := q
        have hk : k = c := hf c (k, val) hfc
        rw [hk]
        rw [List.lookup_cons]
        rw [show (v == c) = false from beq_false_of_ne hvc]
        rw [ih hnd2 v]
        simp [hvc]

theorem vowel_probabilities_lookup (cands : List (List Char)) (u : List Char)
    (hne : cands ≠ []) (v : Char) :
    (vowel_probabilities cands u).lookup v =
      if v ∈ vowelsList ∧ v ∉ u ∧ cands.countP (fun w => decide (v ∈ w)) ≠ 0 then
        some ((cands.countP (fun w => decide (v ∈ w)) : ℚ) / (cands.length : ℚ))
      else none := by
  unfold vowel_probabilities
  rw [if_neg (by simpa [List.isEmpty_iff] using hne)]
  rw [lookup_filterMap_keyed _ ?hf vowelsList (by decide) v]
  case hf =>
    intro c q hq
    split at hq
    · exact absurd hq (by simp)
    · exact ((Option.some.injEq _ _).mp hq) ▸ rfl
  by_cases hv : v ∈ vowelsList
  · by_cases hu : v ∈ u
    · rw [if_pos (show v ∈ u ∨ cands.countP (fun w => decide (v ∈ w)) = 0 from Or.inl hu),
        if_neg (show ¬(v ∈ vowelsList ∧ v ∉ u ∧
          cands.countP (fun w => decide (v ∈ w)) ≠ 0) from fun h => h.2.1 hu)]
      rw [if_pos hv]
      rfl
    · by_cases hcnt : cands.countP (fun w => decide (v ∈ w)) = 0
      · rw [if_pos (show v ∈ u ∨ cands.countP (fun w => decide (v ∈ w)) = 0 from Or.inr hcnt),
          if_neg (show ¬(v ∈ vowelsList ∧ v ∉ u ∧
            cands.countP (fun w => decide (v ∈ w)) ≠ 0) from fun h => h.2.2 hcnt)]
        rw [if_pos hv]
        rfl
      · rw [if_neg (show ¬(v ∈ u ∨ cands.countP (fun w => decide (v ∈ w)) = 0) from by
            tauto),
          if_pos (show v ∈ vowelsList ∧ v ∉ u ∧
            cands.countP (fun w => decide (v ∈ w)) ≠ 0 from ⟨hv, hu, hcnt⟩)]
        rw [if_pos hv]
        rfl
  · rw [if_neg hv, if_neg (show ¬(v ∈ vowelsList ∧ v ∉ u ∧
      cands.countP (fun w => decide (v ∈ w)) ≠ 0) from fun h => hv h.1)]

theorem fallback_stats_lookup (p u : List Char) (v : Char) :
    (fallback_stats p u).lookup v =
      if (p.filter (fun c => decide (c ≠ ' '))).length ≠ 0 ∧ v ∈ vowelsList ∧ v ∉ u then
        some (general_vowel_freq v *
          (1 - (((p.filter (fun c => decide (c ≠ ' '))).length : ℚ) -
              ((p.filter (fun c => decide (c ≠ ' '))).countP (fun c => c == '_') : ℚ)) /
            ((p.filter (fun c => decide (c ≠ ' '))).length : ℚ)) * 2)
      else none := by
  unfold fallback_stats
  by_cases ht : (p.filter (fun c => decide (c ≠ ' '))).length = 0
  · rw [if_pos ht, if_neg (show ¬((p.filter (fun c => decide (c ≠ ' '))).length ≠ 0 ∧
      v ∈ vowelsList ∧ v ∉ u) from fun h => h.1 ht)]
    rfl
  · rw [if_neg ht]
    rw [lookup_filterMap_keyed _ ?hf vowelsList (by decide) v]
    case hf =>
      intro c q hq
      split at hq
      · exact absurd hq (by simp)
      · exact ((Option.some.injEq _ _).mp hq) ▸ rfl
    by_cases hv : v ∈ vowelsList
    · by_cases hu : v ∈ u
      · rw [if_pos hu, if_neg (show ¬((p.filter (fun c => decide (c ≠ ' '))).length ≠ 0 ∧
          v ∈ vowelsList ∧ v ∉ u) from fun h => h.2.2 hu)]
        rw [if_pos hv]
        rfl
      · rw [if_neg hu, if_pos (show (p.filter (fun c => decide (c ≠ ' '))).length ≠ 0 ∧
          v ∈ vowelsList ∧ v ∉ u from ⟨ht, hv, hu⟩)]
        rw [if_pos hv]
        rfl
    · rw [if_neg hv, if_neg (show ¬((p.filter (fun c => decide (c ≠ ' '))).length ≠ 0 ∧
        v ∈ vowelsList ∧ v ∉ u) from fun h => hv h.2.1)]

theorem vowel_probabilities_key_mem (cands : List (List Char)) (u : List Char)
    (v : Char) (q : ℚ) (h : (v, q) ∈ vowel_probabilities cands u) :
    v ∈ vowelsList ∧ v ∉ u := by
  unfold vowel_probabilities at h
  by_cases he : cands.isEmpty
  · rw [if_pos he] at h
    exact absurd h (by simp)
  · rw [if_neg he, List.mem_filterMap] at h
    obtain ⟨a, ha, hfa⟩ := h
    split at hfa
    · exact absurd hfa (by simp)
    · next hcond =>
      have h2 := (Option.some.injEq _ _).mp hfa
      have hav : a = v := congrArg Prod.fst h2
      subst hav
      exact ⟨ha, fun hu => hcond (Or.inl hu)⟩

theorem fallback_stats_key_mem (p u : List Char)
    (v : Char) (q : ℚ) (h : (v, q) ∈ fallback_stats p u) :
    v ∈ vowelsList ∧ v ∉ u := by
  unfold fallback_stats at h
  by_cases ht : (p.filter (fun c => decide (c ≠ ' '))).length = 0
  · rw [if_pos ht] at h
    exact absurd h (by simp)
  · rw [if_neg ht, List.mem_filterMap] at h
    obtain ⟨a, ha, hfa⟩ := h
    split at hfa
    · exact absurd hfa (by simp)
    · next hu =>
      have h2 := (Option.some.injEq _ _).mp hfa
      have hav : a = v := congrArg Prod.fst h2
      subst hav
      exact ⟨ha, hu⟩

/-! ## Helper lemmas: the maximum of a mapping -/

theorem maxKey_fold_mem :
    ∀ (l : List (Char × ℚ)) (acc : Option (Char × ℚ)) (p : Char × ℚ),
      l.foldl (fun acc p =>
        match acc with
        | none => some p
        | some q => if q.2 < p.2 then some p else some q) acc = some p →
      acc = some p ∨ p ∈ l := by
  intro l
  induction l with
  | nil =>
    intro acc p h
    exact Or.inl h
  | cons x xs ih =>
    intro acc p h
    rw [List.foldl_cons] at h
    rcases ih _ p h with hacc | hmem
    · match acc, hacc with
      | none, hacc =>
        right
        have : x = p := by simpa using hacc
        simp [this]
      | some q, hacc =>
        by_cases hlt : q.2 < x.2
        · simp only [hlt, if_true] at hacc
          right
          have : x = p := by simpa using hacc
          simp [this]
        · simp only [hlt, if_false] at hacc
          exact Or.inl hacc
    · exact Or.inr (List.mem_cons_of_mem _ hmem)

theorem maxKey_mem (l : List (Char × ℚ)) (p : Char × ℚ) (h : maxKey l = some p) :
    p ∈ l := by
  unfold maxKey at h
  rcases maxKey_fold_mem l none p h with hacc | hmem
  · exact absurd hacc (by simp)
  · exact hmem

theorem maxKey_fold_some :
    ∀ (l : List (Char × ℚ)) (q : Char × ℚ),
      ∃ p, l.foldl (fun acc p =>
        match acc with
        | none => some p
        | some q => if q.2 < p.2 then some p else some q) (some q) = some p := by
  intro l
  induction l with
  | nil => intro q; exact ⟨q, rfl⟩
  | cons x xs ih =>
    intro q
    rw [List.foldl_cons]
    by_cases hlt : q.2 < x.2
    · simpa [hlt] using ih x
    · simpa [hlt] using ih q

theorem maxKey_nil : maxKey [] = none := rfl

theorem maxKey_cons_some (x : Char × ℚ) (xs : List (Char × ℚ)) :
    ∃ p, maxKey (x :: xs) = some p := by
  unfold maxKey
  rw [List.foldl_cons]
  exact maxKey_fold_some xs x

/-! ## Helper lemmas: branch analysis of the decision engine -/

theorem should_buy_total_aux (corpus : List (List Char)) (vowel_cost : ℚ)
    (board used : List Char) (money : ℚ) (hu : ∀ c ∈ used, c.isAlpha) :
    ∃ r, should_buy_vowel corpus vowel_cost board used money = some r ∧
      r.strategy ∈ (["Finance", "Pattern Matching", "Pattern Matching (Aggressive)",
        "Fallback"] : List String) := by
  unfold should_buy_vowel
  by_cases hm : money < vowel_cost
  · rw [if_pos hm]
    exact ⟨_, rfl, by simp⟩
  · rw [if_neg hm]
    have hg : get_candidates corpus board used =
        some (corpus.filter (fun w =>
          reMatch (RTok.start :: ((clean_pattern board).map
            (pieceTok (excludedSorted board used)) ++ [RTok.dollar])) w true)) := by
      unfold get_candidates
      rw [parseRegex_generate board used hu, Option.map_some']
    obtain ⟨cands, hg2⟩ : ∃ cs, get_candidates corpus board used = some cs := ⟨_, hg⟩
    rw [hg2]
    simp only []
    by_cases hc : cands.isEmpty
    · rw [if_pos hc]
      cases hmk : maxKey (fallback_stats board used) with
      | none => exact ⟨_, rfl, by simp⟩
      | some pr =>
        obtain ⟨bv, score⟩ := pr
        simp only []
        by_cases hs : 3/20 < score
        · rw [if_pos hs]
          exact ⟨_, rfl, by simp⟩
        · rw [if_neg hs]
          exact ⟨_, rfl, by simp⟩
    · rw [if_neg hc]
      cases hmk : maxKey (vowel_probabilities cands used) with
      | none => exact ⟨_, rfl, by simp⟩
      | some pr =>
        obtain ⟨bv, conf⟩ := pr
        simp only []
        by_cases h7 : 7/10 ≤ conf
        · rw [if_pos h7]
          exact ⟨_, rfl, by simp⟩
        · rw [if_neg h7]
          by_cases hag : 2000 < money ∧ 2/5 < conf
          · rw [if_pos hag]
            exact ⟨_, rfl, by simp⟩
          · rw [if_neg hag]
            exact ⟨_, rfl, by simp⟩

theorem should_buy_nonfinance_aux (corpus : List (List Char)) (vowel_cost : ℚ)
    (board used : List Char) (money : ℚ) (r : Recommendation)
    (hm : ¬ money < vowel_cost)
    (h : should_buy_vowel corpus vowel_cost board used money = some r) :
    r.strategy ≠ "Finance" := by
  unfold should_buy_vowel at h
  rw [if_neg hm] at h
  cases hg : get_candidates corpus board used with
  | none =>
    rw [hg] at h
    exact absurd h (by simp)
  | some cands =>
    rw [hg] at h
    simp only [] at h
    by_cases hc : cands.isEmpty
    · rw [if_pos hc] at h
      cases hmk : maxKey (fallback_stats board used) with
      | none =>
        rw [hmk] at h
        injection h with h2
        subst h2
        simp
      | some pr =>
        obtain ⟨bv, score⟩ := pr
        rw [hmk] at h
        simp only [] at h
        by_cases hs : 3/20 < score
        · rw [if_pos hs] at h
          injection h with h2
          subst h2
          simp
        · rw [if_neg hs] at h
          injection h with h2
          subst h2
          simp
    · rw [if_neg hc] at h
      cases hmk : maxKey (vowel_probabilities cands used) with
      | none =>
        rw [hmk] at h
        injection h with h2
        subst h2
        simp
      | some pr =>
        obtain ⟨bv, conf⟩ := pr
        rw [hmk] at h
        simp only [] at h
        by_cases h7 : 7/10 ≤ conf
        · rw [if_pos h7] at h
          injection h with h2
          subst h2
          simp
        · rw [if_neg h7] at h
          by_cases hag : 2000 < money ∧ 2/5 < conf
          · rw [if_pos hag] at h
            injection h with h2
            subst h2
            simp
          · rw [if_neg hag] at h
            injection h with h2
            subst h2
            simp

/-! ## The claims -/

/-- Claim C1, counterexample: with a backslash among the used letters and a
blank in the pattern, the generated regex is `^[^\]$`, whose class escape
swallows the closing bracket, so `re.compile` raises `re.error` and
`should_buy_vowel` returns no recommendation (modelled by `none`), even
though the player can afford the vowel. -/
theorem should_buy_vowel_error_on_backslash :
    should_buy_vowel fallbackCorpus 250 ['_'] ['\\'] 250 = none := by
  with_unfolding_all decide

/-- Claim C1, amended: when every used letter is alphabetic — board
patterns unrestricted, empty or malformed boards and any money amount
included — `should_buy_vowel` terminates normally with a well-formed
`Recommendation`: all five fields are populated and the strategy label is
drawn from the engine's closed set.  As stated over all inputs the claim
fails, because non-alphabetic used letters can reach `re.compile`
unescaped and raise. -/
theorem should_buy_vowel_total_on_alpha (corpus : List (List Char))
    (vowel_cost : ℚ) (board used : List Char) (money : ℚ)
    (hu : ∀ c ∈ used, c.isAlpha) :
    ∃ r, should_buy_vowel corpus vowel_cost board used money = some r ∧
      r.strategy ∈ (["Finance", "Pattern Matching", "Pattern Matching (Aggressive)",
        "Fallback"] : List String) :=
  should_buy_total_aux corpus vowel_cost board used money hu

/-- Claim C1, witness: a concrete alphabetic instance of the totality
theorem. -/
theorem should_buy_vowel_total_on_alpha_witness :
    (∀ c ∈ ("PLE".toList : List Char), c.isAlpha) ∧
    ∃ r, should_buy_vowel fallbackCorpus 250 "_PPLE".toList "PLE".toList 300 = some r ∧
      r.strategy ∈ (["Finance", "Pattern Matching", "Pattern Matching (Aggressive)",
        "Fallback"] : List String) :=
  ⟨by decide, should_buy_vowel_total_on_alpha fallbackCorpus 250 "_PPLE".toList
    "PLE".toList 300 (by decide)⟩

/-- Claim C2: with money strictly below the vowel cost the engine rejects
immediately with the Finance record — decision false, vowel none, strategy
"Finance", confidence 1 — and the result is the same constant for every
corpus, pattern and used-letter set, so neither the corpus nor the pattern
is consulted. -/
theorem finance_gate_rejects (corpus : List (List Char)) (vowel_cost : ℚ)
    (board used : List Char) (money : ℚ) (h : money < vowel_cost) :
    should_buy_vowel corpus vowel_cost board used money =
      some ⟨false, none, "Insufficient money to buy a vowel.", "Finance", 1⟩ := by
  unfold should_buy_vowel
  rw [if_pos h]

/-- Claim C2, witness: scenario C of the specification, money 100 against
the default cost 250. -/
theorem finance_gate_rejects_witness :
    (100 : ℚ) < 250 ∧
    should_buy_vowel fallbackCorpus 250 "_____".toList [] 100 =
      some ⟨false, none, "Insufficient money to buy a vowel.", "Finance", 1⟩ :=
  ⟨by norm_num, finance_gate_rejects fallbackCorpus 250 "_____".toList [] 100
    (by norm_num)⟩

/-- Claim C3: for a non-empty candidate list, the probability mapping holds
exactly the vowels that are unused and present in at least one candidate,
each bound to (number of candidates containing it at least once) divided by
(total number of candidates) — presence binary per word. -/
theorem vowel_probabilities_spec (cands : List (List Char)) (u : List Char)
    (hne : cands ≠ []) (v : Char) :
    (vowel_probabilities cands u).lookup v =
      if v ∈ vowelsList ∧ v ∉ u ∧ cands.countP (fun w => decide (v ∈ w)) ≠ 0 then
        some ((cands.countP (fun w => decide (v ∈ w)) : ℚ) / (cands.length : ℚ))
      else none :=
  vowel_probabilities_lookup cands u hne v

/-- Claim C3, witness: two candidates, one containing A, with E already
used. -/
theorem vowel_probabilities_spec_witness :
    (["APPLE".toList, "BC".toList] : List (List Char)) ≠ [] ∧
    (vowel_probabilities ["APPLE".toList, "BC".toList] ['E']).lookup 'A' =
      (if 'A' ∈ vowelsList ∧ 'A' ∉ (['E'] : List Char) ∧
          (["APPLE".toList, "BC".toList] : List (List Char)).countP
            (fun w => decide ('A' ∈ w)) ≠ 0 then
        some (((["APPLE".toList, "BC".toList] : List (List Char)).countP
            (fun w => decide ('A' ∈ w)) : ℚ) /
          ((["APPLE".toList, "BC".toList] : List (List Char)).length : ℚ))
      else none) :=
  ⟨by decide, vowel_probabilities_spec ["APPLE".toList, "BC".toList] ['E']
    (by decide) 'A'⟩

/-- Claim C4, counterexample: the claim counts spaces toward the pattern
length, but the code strips spaces before measuring.  On the board
`"_ _"` the code scores E at 0.127 × 1 × 2 = 0.254 = 127/500 while the
claimed formula gives 0.127 × (2/3) × 2 = 127/750. -/
theorem fallback_stats_space_counterexample :
    (fallback_stats ['_', ' ', '_'] []).lookup 'E' = some (127/500) ∧
    specFallbackScore ['_', ' ', '_'] 'E' = 127/750 ∧
    (fallback_stats ['_', ' ', '_'] []).lookup 'E' ≠
      some (specFallbackScore ['_', ' ', '_'] 'E') := by
  refine ⟨?_, ?_, ?_⟩ <;> with_unfolding_all decide

/-- Claim C4, amended: the fallback estimator first strips spaces — they do
not count toward the pattern length — while punctuation counts and is
treated as already filled; each vowel not in the used letters scores
frequency × information_need × 2.0 with the fixed priors (A=0.082, E=0.127,
I=0.070, O=0.075, U=0.028), where information_need =
1 − (stripped length − blanks)/stripped length, and the mapping is empty
when the stripped length is zero. -/
theorem fallback_stats_spec (p u : List Char) (v : Char) :
    ((fallback_stats p u).lookup v =
      if (p.filter (fun c => decide (c ≠ ' '))).length ≠ 0 ∧ v ∈ vowelsList ∧ v ∉ u then
        some (general_vowel_freq v *
          (1 - (((p.filter (fun c => decide (c ≠ ' '))).length : ℚ) -
              ((p.filter (fun c => decide (c ≠ ' '))).countP (fun c => c == '_') : ℚ)) /
            ((p.filter (fun c => decide (c ≠ ' '))).length : ℚ)) * 2)
      else none) ∧
    ((p.filter (fun c => decide (c ≠ ' '))).length = 0 → fallback_stats p u = []) :=
  ⟨fallback_stats_lookup p u v, fun h => by unfold fallback_stats; rw [if_pos h]⟩

/-- Claim C4, witness: the amended characterization at a one-blank board. -/
theorem fallback_stats_spec_witness :
    ((fallback_stats ['_'] []).lookup 'E' =
      if ((['_'] : List Char).filter (fun c => decide (c ≠ ' '))).length ≠ 0 ∧
          'E' ∈ vowelsList ∧ 'E' ∉ ([] : List Char) then
        some (general_vowel_freq 'E' *
          (1 - ((((['_'] : List Char).filter (fun c => decide (c ≠ ' '))).length : ℚ) -
              (((['_'] : List Char).filter (fun c => decide (c ≠ ' '))).countP
                (fun c => c == '_') : ℚ)) /
            (((['_'] : List Char).filter (fun c => decide (c ≠ ' '))).length : ℚ)) * 2)
      else none) ∧
    (((['_'] : List Char).filter (fun c => decide (c ≠ ' '))).length = 0 →
      fallback_stats ['_'] [] = []) :=
  fallback_stats_spec ['_'] [] 'E'

/-- Claim C5: with affordable money, a non-empty candidate set and a
probability mapping whose maximum is exactly 0.70, the engine accepts with
strategy "Pattern Matching" and confidence equal to that probability — the
0.70 threshold is inclusive. -/
theorem threshold_boundary_inclusive (corpus : List (List Char))
    (vowel_cost : ℚ) (board used : List Char) (money : ℚ)
    (cands : List (List Char)) (v : Char)
    (hm : ¬ money < vowel_cost)
    (hc : get_candidates corpus board used = some cands)
    (hne : cands.isEmpty = false)
    (hmax : maxKey (vowel_probabilities cands used) = some (v, 7/10)) :
    should_buy_vowel corpus vowel_cost board used money =
      some ⟨true, some v, "High probability from pattern matching.",
        "Pattern Matching", 7/10⟩ := by
  unfold should_buy_vowel
  rw [if_neg hm, hc]
  simp only []
  rw [if_neg (by simp [hne]), hmax]
  simp only []
  rw [if_pos (le_refl ((7 : ℚ)/10))]

/-- Claim C5, witness: seven of ten two-letter candidates contain A, so the
maximum probability is exactly 0.70 and the engine accepts at the
boundary. -/
theorem threshold_boundary_inclusive_witness :
    ¬ (250 : ℚ) < 250 ∧
    get_candidates boundaryCorpus "__".toList [] = some boundaryCorpus ∧
    boundaryCorpus.isEmpty = false ∧
    maxKey (vowel_probabilities boundaryCorpus []) = some ('A', 7/10) ∧
    should_buy_vowel boundaryCorpus 250 "__".toList [] 250 =
      some ⟨true, some 'A', "High probability from pattern matching.",
        "Pattern Matching", 7/10⟩ :=
  ⟨by norm_num, by decide, by decide, by with_unfolding_all decide,
    threshold_boundary_inclusive boundaryCorpus 250 "__".toList [] 250
      boundaryCorpus 'A' (by norm_num) (by decide) (by decide)
      (by with_unfolding_all decide)⟩

/-- Claim C6, counterexample: the board `_PPLE` with used letters P, L, E
determines the single candidate APPLE; E occurs in APPLE but, being a used
letter, carries no probability entry — the reported probability is 0,
not 1 as the claim requires for every vowel in the word. -/
theorem unique_candidate_used_vowel_cex :
    get_candidates ["APPLE".toList] "_PPLE".toList "PLE".toList =
      some ["APPLE".toList] ∧
    'E' ∈ "APPLE".toList ∧
    ((vowel_probabilities ["APPLE".toList] "PLE".toList).lookup 'E').getD 0 = 0 := by
  refine ⟨by decide, by decide, ?_⟩
  with_unfolding_all decide

/-- Claim C6, amended: when the candidate set is a single word, every vowel
not among the used letters has probability 1 if it occurs in that word and 0
otherwise (an absent entry reads as probability 0); vowels already used
carry no entry even when they occur in the word. -/
theorem unique_candidate_probabilities (corpus : List (List Char))
    (board used : List Char) (w : List Char)
    (hc : get_candidates corpus board used = some [w]) (v : Char)
    (hv : v ∈ vowelsList) (hvu : v ∉ used) :
    ((vowel_probabilities [w] used).lookup v).getD 0 = if v ∈ w then 1 else 0 := by
  rw [vowel_probabilities_lookup [w] used (by simp) v]
  by_cases hw : v ∈ w
  · have hcnt : ([w] : List (List Char)).countP (fun x => decide (v ∈ x)) = 1 := by
      simp [hw]
    rw [if_pos ⟨hv, hvu, by rw [hcnt]; norm_num⟩, hcnt, if_pos hw]
    norm_num
  · have hcnt : ([w] : List (List Char)).countP (fun x => decide (v ∈ x)) = 0 := by
      simp [hw]
    rw [if_neg (fun h => h.2.2 hcnt), if_neg hw]
    rfl

/-- Claim C6, witness: the unique candidate APPLE with the unused vowel A. -/
theorem unique_candidate_probabilities_witness :
    get_candidates ["APPLE".toList] "_PPLE".toList "PLE".toList =
      some ["APPLE".toList] ∧
    'A' ∈ vowelsList ∧ 'A' ∉ ("PLE".toList : List Char) ∧
    ((vowel_probabilities ["APPLE".toList] "PLE".toList).lookup 'A').getD 0 =
      if 'A' ∈ "APPLE".toList then 1 else 0 :=
  ⟨by decide, by decide, by decide,
    unique_candidate_probabilities ["APPLE".toList] "_PPLE".toList "PLE".toList
      "APPLE".toList (by decide) 'A' (by decide) (by decide)⟩

/-- Claim C7, counterexample: with a backslash among the used letters and a
blank on the board, the finance pair m1 = 100 < 250 ≤ 250 = m2 moves the
Finance rejection not to a non-Finance outcome but to no outcome at all —
the m2 call reaches `re.compile` with the unterminated class `[^\]` and
raises — so the claim as stated, quantified over every used-letter set,
is false. -/
theorem money_monotonicity_cex :
    (100 : ℚ) < 250 ∧ (250 : ℚ) ≤ 250 ∧
    should_buy_vowel fallbackCorpus 250 ['_'] ['\\'] 100 =
      some ⟨false, none, "Insufficient money to buy a vowel.", "Finance", 1⟩ ∧
    should_buy_vowel fallbackCorpus 250 ['_'] ['\\'] 250 = none := by
  refine ⟨by norm_num, by norm_num, ?_, ?_⟩ <;> with_unfolding_all decide

/-- Claim C7, amended: raising money across the cost threshold can never
move an outcome toward Finance, and produces a non-Finance outcome
whenever the call returns at all: below the cost the call returns exactly
the Finance rejection; at or above the cost every returned outcome carries
a non-Finance strategy; and when the used letters are alphabetic (the case
in which the pattern-matching step cannot raise) a non-Finance outcome is
indeed returned. -/
theorem money_monotonicity (corpus : List (List Char)) (vowel_cost : ℚ)
    (board used : List Char) (m1 m2 : ℚ)
    (h1 : m1 < vowel_cost) (h2 : vowel_cost ≤ m2) :
    should_buy_vowel corpus vowel_cost board used m1 =
      some ⟨false, none, "Insufficient money to buy a vowel.", "Finance", 1⟩ ∧
    (∀ r, should_buy_vowel corpus vowel_cost board used m2 = some r →
      r.strategy ≠ "Finance") ∧
    ((∀ c ∈ used, c.isAlpha) →
      ∃ r, should_buy_vowel corpus vowel_cost board used m2 = some r ∧
        r.strategy ≠ "Finance") := by
  have hm2 : ¬ m2 < vowel_cost := not_lt.mpr h2
  refine ⟨?_, ?_, ?_⟩
  · unfold should_buy_vowel
    rw [if_pos h1]
  · intro r hr
    exact should_buy_nonfinance_aux corpus vowel_cost board used m2 r hm2 hr
  · intro hu
    obtain ⟨r, hr, -⟩ := should_buy_total_aux corpus vowel_cost board used m2 hu
    exact ⟨r, hr, should_buy_nonfinance_aux corpus vowel_cost board used m2 r hm2 hr⟩

/-- Claim C7, witness: money 100 versus 300 around the default cost 250 on
a fixed board. -/
theorem money_monotonicity_witness :
    (100 : ℚ) < 250 ∧ (250 : ℚ) ≤ 300 ∧
    (should_buy_vowel fallbackCorpus 250 "_PPLE".toList "PLE".toList 100 =
      some ⟨false, none, "Insufficient money to buy a vowel.", "Finance", 1⟩ ∧
    (∀ r, should_buy_vowel fallbackCorpus 250 "_PPLE".toList "PLE".toList 300 = some r →
      r.strategy ≠ "Finance") ∧
    ((∀ c ∈ ("PLE".toList : List Char), c.isAlpha) →
      ∃ r, should_buy_vowel fallbackCorpus 250 "_PPLE".toList "PLE".toList 300 = some r ∧
        r.strategy ≠ "Finance")) :=
  ⟨by norm_num, by norm_num,
    money_monotonicity fallbackCorpus 250 "_PPLE".toList "PLE".toList 100 300
      (by norm_num) (by norm_num)⟩

/-- Claim C8, counterexample: with used letters A and `]`, the sorted
exclusion set `A]` closes the character class early — the generated regex
`^[^A]][^A]]$` demands literal `]` characters — so the two-letter word BC
satisfies the claimed predicate (length matches, B and C avoid the excluded
set) yet the code returns no candidates. -/
theorem get_candidates_metachar_cex :
    specMatches (excludedSorted "__".toList ['A', ']'])
      (clean_pattern "__".toList) "BC".toList = true ∧
    get_candidates ["BC".toList] "__".toList ['A', ']'] = some [] ∧
    get_candidates ["BC".toList] "__".toList ['A', ']'] ≠
      some ((["BC".toList] : List (List Char)).filter
        (fun w => specMatches (excludedSorted "__".toList ['A', ']'])
          (clean_pattern "__".toList) w)) := by
  refine ⟨by decide, by decide, by decide⟩

/-- Claim C8, amended: when the used letters are alphabetic (so no regex
metacharacter leaks into the character class) and the corpus words are
alphabetic (as the dictionary loader guarantees), the candidate filter
returns exactly the ordered subsequence of the corpus satisfying the
predicate: word length equals normalized pattern length, literal non-blank
positions match exactly, and each blank position holds a character not in
excluded = revealed ∪ (used letters − revealed), any character being
allowed at blanks when excluded is empty. -/
theorem get_candidates_eq_spec_filter (corpus : List (List Char))
    (board used : List Char)
    (hu : ∀ c ∈ used, c.isAlpha)
    (hcorp : ∀ w ∈ corpus, ∀ c ∈ w, c.isAlpha) :
    get_candidates corpus board used =
      some (corpus.filter
        (fun w => specMatches (excludedSorted board used) (clean_pattern board) w)) :=
  get_candidates_spec_aux corpus board used hu hcorp

/-- Claim C8, witness: the fallback dictionary against the board `_PPLE`
with used letters P, L, E. -/
theorem get_candidates_eq_spec_filter_witness :
    (∀ c ∈ ("PLE".toList : List Char), c.isAlpha) ∧
    (∀ w ∈ fallbackCorpus, ∀ c ∈ w, c.isAlpha) ∧
    get_candidates fallbackCorpus "_PPLE".toList "PLE".toList =
      some (fallbackCorpus.filter
        (fun w => specMatches (excludedSorted "_PPLE".toList "PLE".toList)
          (clean_pattern "_PPLE".toList) w)) :=
  ⟨by decide, by decide,
    get_candidates_eq_spec_filter fallbackCorpus "_PPLE".toList "PLE".toList
      (by decide) (by decide)⟩

/-- Claim C9: whenever the engine decides to buy, it names a vowel —
`decision = true` implies the suggested vowel is present; only rejecting
branches (Finance gate, empty mappings, below-threshold rejections) may
carry no vowel. -/
theorem decision_true_implies_vowel (corpus : List (List Char))
    (vowel_cost : ℚ) (board used : List Char) (money : ℚ) (r : Recommendation)
    (h : should_buy_vowel corpus vowel_cost board used money = some r)
    (hd : r.decision = true) :
    r.suggested_vowel ≠ none := by
  unfold should_buy_vowel at h
  by_cases hm : money < vowel_cost
  · rw [if_pos hm] at h
    injection h with h2
    subst h2
    simp at hd
  · rw [if_neg hm] at h
    cases hg : get_candidates corpus board used with
    | none =>
      rw [hg] at h
      exact absurd h (by simp)
    | some cands =>
      rw [hg] at h
      simp only [] at h
      by_cases hc : cands.isEmpty
      · rw [if_pos hc] at h
        cases hmk : maxKey (fallback_stats board used) with
        | none =>
          rw [hmk] at h
          injection h with h2
          subst h2
          simp at hd
        | some pr =>
          obtain ⟨bv, score⟩ := pr
          rw [hmk] at h
          simp only [] at h
          by_cases hs : 3/20 < score
          · rw [if_pos hs] at h
            injection h with h2
            subst h2
            simp
          · rw [if_neg hs] at h
            injection h with h2
            subst h2
            simp
      · rw [if_neg hc] at h
        cases hmk : maxKey (vowel_probabilities cands used) with
        | none =>
          rw [hmk] at h
          injection h with h2
          subst h2
          simp at hd
        | some pr =>
          obtain ⟨bv, conf⟩ := pr
          rw [hmk] at h
          simp only [] at h
          by_cases h7 : 7/10 ≤ conf
          · rw [if_pos h7] at h
            injection h with h2
            subst h2
            simp
          · rw [if_neg h7] at h
            by_cases hag : 2000 < money ∧ 2/5 < conf
            · rw [if_pos hag] at h
              injection h with h2
              subst h2
              simp
            · rw [if_neg hag] at h
              injection h with h2
              subst h2
              simp

/-- Claim C9, witness: a concrete accepting call suggesting the vowel A. -/
theorem decision_true_implies_vowel_witness :
    should_buy_vowel boundaryCorpus 250 "__".toList [] 250 =
      some ⟨true, some 'A', "High probability from pattern matching.",
        "Pattern Matching", 7/10⟩ ∧
    (⟨true, some 'A', "High probability from pattern matching.",
      "Pattern Matching", 7/10⟩ : Recommendation).decision = true ∧
    (⟨true, some 'A', "High probability from pattern matching.",
      "Pattern Matching", 7/10⟩ : Recommendation).suggested_vowel ≠ none :=
  ⟨by with_unfolding_all decide, by decide,
    decision_true_implies_vowel boundaryCorpus 250 "__".toList [] 250
      ⟨true, some 'A', "High probability from pattern matching.",
        "Pattern Matching", 7/10⟩
      (by with_unfolding_all decide) (by decide)⟩

/-- Claim C10: a suggested vowel is always one of A, E, I, O, U and is
never a letter already used — the engine never proposes a consonant or a
spent vowel. -/
theorem suggested_vowel_is_unused_vowel (corpus : List (List Char))
    (vowel_cost : ℚ) (board used : List Char) (money : ℚ) (r : Recommendation)
    (v : Char)
    (h : should_buy_vowel corpus vowel_cost board used money = some r)
    (hv : r.suggested_vowel = some v) :
    v ∈ vowelsList ∧ v ∉ used := by
  unfold should_buy_vowel at h
  by_cases hm : money < vowel_cost
  · rw [if_pos hm] at h
    injection h with h2
    subst h2
    simp at hv
  · rw [if_neg hm] at h
    cases hg : get_candidates corpus board used with
    | none =>
      rw [hg] at h
      exact absurd h (by simp)
    | some cands =>
      rw [hg] at h
      simp only [] at h
      by_cases hc : cands.isEmpty
      · rw [if_pos hc] at h
        cases hmk : maxKey (fallback_stats board used) with
        | none =>
          rw [hmk] at h
          injection h with h2
          subst h2
          simp at hv
        | some pr =>
          obtain ⟨bv, score⟩ := pr
          have hbv : bv ∈ vowelsList ∧ bv ∉ used :=
            fallback_stats_key_mem board used bv score (maxKey_mem _ _ hmk)
          rw [hmk] at h
          simp only [] at h
          by_cases hs : 3/20 < score
          · rw [if_pos hs] at h
            injection h with h2
            subst h2
            simp only [Option.some.injEq] at hv
            exact hv ▸ hbv
          · rw [if_neg hs] at h
            injection h with h2
            subst h2
            simp only [Option.some.injEq] at hv
            exact hv ▸ hbv
      · rw [if_neg hc] at h
        cases hmk : maxKey (vowel_probabilities cands used) with
        | none =>
          rw [hmk] at h
          injection h with h2
          subst h2
          simp at hv
        | some pr =>
          obtain ⟨bv, conf⟩ := pr
          have hbv : bv ∈ vowelsList ∧ bv ∉ used :=
            vowel_probabilities_key_mem cands used bv conf (maxKey_mem _ _ hmk)
          rw [hmk] at h
          simp only [] at h
          by_cases h7 : 7/10 ≤ conf
          · rw [if_pos h7] at h
            injection h with h2
            subst h2
            simp only [Option.some.injEq] at hv
            exact hv ▸ hbv
          · rw [if_neg h7] at h
            by_cases hag : 2000 < money ∧ 2/5 < conf
            · rw [if_pos hag] at h
              injection h with h2
              subst h2
              simp only [Option.some.injEq] at hv
              exact hv ▸ hbv
            · rw [if_neg hag] at h
              injection h with h2
              subst h2
              simp only [Option.some.injEq] at hv
              exact hv ▸ hbv

/-- Claim C10, witness: a concrete call whose suggestion A is an unused
vowel. -/
theorem suggested_vowel_is_unused_vowel_witness :
    should_buy_vowel boundaryCorpus 250 "__".toList [] 250 =
      some ⟨true, some 'A', "High probability from pattern matching.",
        "Pattern Matching", 7/10⟩ ∧
    'A' ∈ vowelsList ∧ 'A' ∉ ([] : List Char) :=
  ⟨by with_unfolding_all decide,
    suggested_vowel_is_unused_vowel boundaryCorpus 250 "__".toList [] 250
      ⟨true, some 'A', "High probability from pattern matching.",
        "Pattern Matching", 7/10⟩ 'A'
      (by with_unfolding_all decide) (by decide)⟩
